import Mathlib

/-!
# Verification of the document pretty printer (`main.go`, `css_ast.go`)

Shallow embedding of the document algebra, the fit evaluator `(*DocGroup).fits`,
the renderer `format` and the CSS client, followed by theorems about them.

Modelling conventions:

* Go `string` values are modelled by Lean `String`; `len([]rune(s))` is
  `String.length` (number of code points).
* Go `int` is modelled by `Int`. The two operations of `format` on integers supplied
  by the caller, `width - columns` and `head.indentation + doc.indent`, wrap around
  in 64 bits as in Go (`intSub`, `intAdd`). The column counters `c` and `columns`
  count code points of strings held in memory and cannot reach `2^63`; their
  additions are not wrapped.
* `Doc` is the closed sum of the six document structs of `main.go`.
* The two `for` loops are modelled by functions on their loop state, one unfolding
  per iteration, defined by well-founded recursion on the number of document nodes
  left in the work list, so both are total.
* `strings.Repeat` panics on a negative count; `format` therefore returns an
  `Option String`, where `none` stands for that run-time panic.
* `fitsStep` and `formatStep` give the same loops one iteration at a time; they are
  proved to agree with the recursive loop functions.
-/

namespace PrettyPrinter

/-! ## Data model -/

/-- The `Doc` interface with its six implementations
`DocNil`, `DocText`, `DocBreak`, `DocCons`, `DocNest`, `DocGroup`. -/
inductive Doc where
  | DocNil : Doc
  | DocText (payload : String) : Doc
  | DocBreak (payload : String) : Doc
  | DocCons (payload : List Doc) : Doc
  | DocNest (payload : Doc) (indent : Int) : Doc
  | DocGroup (payload : Doc) : Doc

open Doc

/-- The type `BreakMode` with its constants `None`, `Flat`, `Broken`. -/
inductive BreakMode where
  | None
  | Flat
  | Broken
  deriving DecidableEq, Repr

/-- The Go expression `len([]rune(s))`: the number of code points of `s`. -/
def runeLen (s : String) : Int := s.length

/-- The library function `strings.Repeat(s, count)`: panics (here `none`) when
`count` is negative, otherwise `count` copies of `s`. -/
def stringsRepeat (s : String) (count : Int) : Option String :=
  if count < 0 then none else some (String.join (List.replicate count.toNat s))

/-- The constant `math.MinInt64`, the least value of Go's `int`. -/
def MinInt64 : Int := -9223372036854775808

/-- The constant `math.MaxInt64`, the greatest value of Go's `int`. -/
def MaxInt64 : Int := 9223372036854775807

/-- Whether an integer is a value of Go's 64-bit `int`. -/
def isInt64 (x : Int) : Bool := decide (MinInt64 ≤ x) && decide (x ≤ MaxInt64)

/-- The value of Go's `int` that is congruent to `x` modulo `2^64`. -/
def wrapInt64 (x : Int) : Int :=
  (x + 9223372036854775808) % 18446744073709551616 - 9223372036854775808

/-- Go's `a - b` on `int`: the difference, wrapped around in 64 bits. Integers outside
the 64-bit range are not values of `int`; on them the function is the plain
difference. -/
def intSub (a b : Int) : Int :=
  if isInt64 a && isInt64 b then wrapInt64 (a - b) else a - b

/-- Go's `a + b` on `int`: the sum, wrapped around in 64 bits. Integers outside the
64-bit range are not values of `int`; on them the function is the plain sum. -/
def intAdd (a b : Int) : Int :=
  if isInt64 a && isInt64 b then wrapInt64 (a + b) else a + b

/-! ## Constructors -/

/-- The constructor `_nil()`. -/
def _nil : Doc := DocNil

/-- The constructor `text(s)`. -/
def text (s : String) : Doc := DocText s

/-- The constructor `_break()`: a break whose flat rendering is one space. -/
def _break : Doc := DocBreak " "

/-- The constructor `breakWith(s)`. -/
def breakWith (s : String) : Doc := DocBreak s

/-- The function `concat(d1, d2)`: a cons document; the payload of an operand that
is itself a cons is spliced in, any other operand is appended as one element. -/
def concat (d1 d2 : Doc) : Doc :=
  let docs : List Doc := []
  let docs :=
    match d1 with
    | DocCons payload => docs ++ payload
    | _ => docs ++ [d1]
  let docs :=
    match d2 with
    | DocCons payload => docs ++ payload
    | _ => docs ++ [d2]
  DocCons docs

/-- The function `concatList(ds)`: left fold of `concat` starting from `_nil()`. -/
def concatList (ds : List Doc) : Doc :=
  ds.foldl (fun doc d => concat doc d) _nil

/-- The function `concatWithBreak(d1, d2)`. -/
def concatWithBreak (d1 d2 : Doc) : Doc :=
  match d1 with
  | DocNil => d2
  | _ =>
    match d2 with
    | DocNil => d1
    | _ => concat (concat d1 _break) d2

/-- The generic function `fold(list)`; the method `toDoc` of the element type is
passed as a function. -/
def fold {T : Type} (toDoc : T → Doc) (list : List T) : Doc :=
  list.foldl (fun doc i => concatWithBreak doc (toDoc i)) _nil

/-- The constructor `nest(d, indent)`. -/
def nest (d : Doc) (indent : Int) : Doc := DocNest d indent

/-- The constructor `group(d)`. -/
def group (d : Doc) : Doc := DocGroup d

/-! ## Size of documents (termination measure of the two loops) -/

mutual
/-- Number of nodes of a document. -/
def Doc.nodes : Doc → Nat
  | DocNil => 1
  | DocText _ => 1
  | DocBreak _ => 1
  | DocCons ps => 1 + nodesList ps
  | DocNest p _ => 1 + p.nodes
  | DocGroup p => 1 + p.nodes
/-- Number of nodes of a list of documents. -/
def nodesList : List Doc → Nat
  | [] => 0
  | d :: ds => d.nodes + nodesList ds
end

/-! ## The fit evaluator -/

/-- The loop of `(*DocGroup).fits`, one unfolding per iteration, on the loop state
`encounteredBreak`, `breakMode`, `docs`, `c`. -/
def fitsLoop (width : Int) (encounteredBreak : Bool) (breakMode : BreakMode)
    (docs : List Doc) (c : Int) : Bool :=
  if c > width ∧ encounteredBreak = true then false
  else
    match docs with
    | [] => true
    | DocNil :: remain => fitsLoop width encounteredBreak breakMode remain c
    | DocText payload :: remain =>
      fitsLoop width encounteredBreak breakMode remain (c + runeLen payload)
    | DocBreak payload :: remain =>
      match breakMode with
      | BreakMode.Flat => fitsLoop width true breakMode remain (c + runeLen payload)
      | BreakMode.Broken => fitsLoop width true breakMode remain c
      | BreakMode.None => fitsLoop width true breakMode remain c
    | DocNest payload _ :: remain =>
      fitsLoop width encounteredBreak breakMode (payload :: remain) c
    | DocCons payload :: remain =>
      fitsLoop width encounteredBreak breakMode (payload ++ remain) c
    | DocGroup payload :: remain =>
      fitsLoop width encounteredBreak BreakMode.Flat (remain ++ [payload]) c
termination_by nodesList docs
decreasing_by
  all_goals simp_wf
  all_goals
    have happ : ∀ xs ys : List Doc, nodesList (xs ++ ys) = nodesList xs + nodesList ys := by
      intro xs ys
      induction xs with
      | nil => simp [nodesList]
      | cons x xs ih => simp [nodesList, ih]; omega
    simp [nodesList, Doc.nodes, happ]
  all_goals omega

/-- The method `(*DocGroup).fits(width)` on the group `DocGroup{payload}`: the work
list starts with the group itself. -/
def fits (payload : Doc) (width : Int) : Bool :=
  fitsLoop width false BreakMode.Flat [DocGroup payload] 0

/-! ## The renderer -/

/-- The struct `DocWithState`: the triple (indentation, break mode, document). -/
structure DocWithState where
  indentation : Int
  breakMode : BreakMode
  doc : Doc

/-- Number of document nodes in a work list of `format`. -/
def nodesStates (docs : List DocWithState) : Nat :=
  nodesList (docs.map (fun s => s.doc))

/-- The loop of `format`, one unfolding per iteration, on the loop state
`docs`, `columns`, `output`; `none` is the panic of `strings.Repeat`. -/
def formatLoop (width : Int) (docs : List DocWithState) (columns : Int)
    (output : String) : Option String :=
  match docs with
  | [] => some output
  | ⟨_, _, DocNil⟩ :: tail => formatLoop width tail columns output
  | ⟨_, _, DocText payload⟩ :: tail =>
    formatLoop width tail (columns + runeLen payload) (output ++ payload)
  | ⟨indentation, breakMode, DocBreak payload⟩ :: tail =>
    match breakMode with
    | BreakMode.Flat =>
      formatLoop width tail (columns + runeLen payload) (output ++ payload)
    | BreakMode.Broken | BreakMode.None =>
      match stringsRepeat " " indentation with
      | none => none
      | some spaces => formatLoop width tail indentation (output ++ ("\n" ++ spaces))
  | ⟨indentation, breakMode, DocNest payload indent⟩ :: tail =>
    formatLoop width (⟨intAdd indentation indent, breakMode, payload⟩ :: tail) columns output
  | ⟨indentation, breakMode, DocCons payload⟩ :: tail =>
    formatLoop width
      (payload.map (fun d => DocWithState.mk indentation breakMode d) ++ tail)
      columns output
  | ⟨indentation, _, DocGroup payload⟩ :: tail =>
    formatLoop width
      (⟨indentation, if fits payload (intSub width columns) then BreakMode.Flat
                     else BreakMode.Broken, payload⟩ :: tail)
      columns output
termination_by nodesStates docs
decreasing_by
  all_goals simp_wf
  all_goals
    have happ : ∀ xs ys : List Doc, nodesList (xs ++ ys) = nodesList xs + nodesList ys := by
      intro xs ys
      induction xs with
      | nil => simp [nodesList]
      | cons x xs ih => simp [nodesList, ih]; omega
    simp [nodesStates, nodesList, Doc.nodes, happ, Function.comp_def]

/-- The function `format(d, width)`. -/
def format (d : Doc) (width : Int) : Option String :=
  formatLoop width [⟨0, BreakMode.None, d⟩] 0 ""

/-! ## Specification-side functions -/

mutual
/-- Whether the tree of a document contains a `DocBreak` node. -/
def Doc.hasBreak : Doc → Bool
  | DocNil => false
  | DocText _ => false
  | DocBreak _ => true
  | DocCons ps => hasBreakList ps
  | DocNest p _ => p.hasBreak
  | DocGroup p => p.hasBreak
/-- Whether some document of a list contains a `DocBreak` node. -/
def hasBreakList : List Doc → Bool
  | [] => false
  | d :: ds => d.hasBreak || hasBreakList ds
end

mutual
/-- Sum of the code-point lengths of all `DocText` and `DocBreak` payloads in the
tree of a document. -/
def Doc.flatLen : Doc → Int
  | DocNil => 0
  | DocText s => runeLen s
  | DocBreak s => runeLen s
  | DocCons ps => flatLenList ps
  | DocNest p _ => p.flatLen
  | DocGroup p => p.flatLen
/-- Sum of `Doc.flatLen` over a list of documents. -/
def flatLenList : List Doc → Int
  | [] => 0
  | d :: ds => d.flatLen + flatLenList ds
end

mutual
/-- The flat rendering of a document: the concatenation, in document order, of every
`DocText` payload and every `DocBreak` payload; nests and groups are transparent. -/
def Doc.flat : Doc → String
  | DocNil => ""
  | DocText s => s
  | DocBreak s => s
  | DocCons ps => flatList ps
  | DocNest p _ => p.flat
  | DocGroup p => p.flat
/-- Concatenation of the flat renderings of a list of documents. -/
def flatList : List Doc → String
  | [] => ""
  | d :: ds => d.flat ++ flatList ds
end

/-- The documents of a work list of `format`, in order. -/
def statesDocs (docs : List DocWithState) : List Doc :=
  docs.map (fun s => s.doc)

mutual
/-- Whether the tree of a document contains a `DocGroup` node. -/
def Doc.hasGroup : Doc → Bool
  | DocNil => false
  | DocText _ => false
  | DocBreak _ => false
  | DocCons ps => hasGroupList ps
  | DocNest p _ => p.hasGroup
  | DocGroup _ => true
/-- Whether some document of a list contains a `DocGroup` node. -/
def hasGroupList : List Doc → Bool
  | [] => false
  | d :: ds => d.hasGroup || hasGroupList ds
end

mutual
/-- Whether every `DocNest` node in the tree of a document has a non-negative
indent. -/
def Doc.nestNonneg : Doc → Bool
  | DocNil => true
  | DocText _ => true
  | DocBreak _ => true
  | DocCons ps => nestNonnegList ps
  | DocNest p k => decide (0 ≤ k) && p.nestNonneg
  | DocGroup p => p.nestNonneg
/-- Whether every document of a list satisfies `Doc.nestNonneg`. -/
def nestNonnegList : List Doc → Bool
  | [] => true
  | d :: ds => d.nestNonneg && nestNonnegList ds
end

/-- A string of `k` space characters. -/
def spaces (k : Nat) : String := String.mk (List.replicate k ' ')

mutual
/-- The recursive renderer `R(i, d)` for documents without groups, in which every
break is a newline followed by `i` spaces, `i` being the sum of the indents of the
enclosing nests. (Groups do not occur in its intended domain; they are treated as
transparent.) -/
def indentR : Int → Doc → String
  | _, DocNil => ""
  | _, DocText s => s
  | i, DocBreak _ => "\n" ++ spaces i.toNat
  | i, DocCons cs => indentRList i cs
  | i, DocNest c k => indentR (i + k) c
  | i, DocGroup c => indentR i c
/-- Concatenation of `indentR i c` over the documents `c` of a list, in order. -/
def indentRList : Int → List Doc → String
  | _, [] => ""
  | i, d :: ds => indentR i d ++ indentRList i ds
end

/-- The function `children(x)`: the payload of `x` when `x` is a cons, the
one-element list `[x]` otherwise. -/
def children : Doc → List Doc
  | DocCons payload => payload
  | x => [x]

/-- Whether a document is `DocNil`. -/
def Doc.isNil : Doc → Bool
  | DocNil => true
  | _ => false

/-- Whether a document is a `DocCons`. -/
def Doc.isCons : Doc → Bool
  | DocCons _ => true
  | _ => false

/-- For documents `e1, ..., ek` the list
`[Break " "] ++ children(e1) ++ ... ++ [Break " "] ++ children(ek)`. -/
def breakSeparated : List Doc → List Doc
  | [] => []
  | e :: rest => DocBreak " " :: (children e ++ breakSeparated rest)

/-- The document described for `fold` from the non-nil item documents `e1, ..., ek`:
`DocNil` for `k = 0`, `e1` for `k = 1`, and otherwise the cons whose children are
`children(e1) ++ [Break " "] ++ children(e2) ++ ... ++ [Break " "] ++ children(ek)`. -/
def foldSpec : List Doc → Doc
  | [] => DocNil
  | [e] => e
  | e :: rest => DocCons (children e ++ breakSeparated rest)

mutual
/-- The invariant that no `DocCons` node of the tree has a `DocCons` node as a
direct child. -/
def Doc.noConsCons : Doc → Bool
  | DocNil => true
  | DocText _ => true
  | DocBreak _ => true
  | DocCons ps => ps.all (fun d => !d.isCons) && noConsConsList ps
  | DocNest p _ => p.noConsCons
  | DocGroup p => p.noConsCons
/-- Every document of the list satisfies `Doc.noConsCons`. -/
def noConsConsList : List Doc → Bool
  | [] => true
  | d :: ds => d.noConsCons && noConsConsList ds
end

/-- Documents built only with the constructors `_nil`, `text`, `_break`, `breakWith`,
`concat`, `concatList`, `concatWithBreak`, `fold`, `nest` and `group`. -/
inductive Built : Doc → Prop where
  | nil : Built _nil
  | text (s : String) : Built (text s)
  | brk : Built _break
  | breakWith (s : String) : Built (breakWith s)
  | concat {a b : Doc} : Built a → Built b → Built (concat a b)
  | concatList {ds : List Doc} : (∀ d ∈ ds, Built d) → Built (concatList ds)
  | concatWithBreak {a b : Doc} : Built a → Built b → Built (concatWithBreak a b)
  | fold {T : Type} (toDoc : T → Doc) (items : List T) :
      (∀ i ∈ items, Built (toDoc i)) → Built (fold toDoc items)
  | nest {d : Doc} (indent : Int) : Built d → Built (nest d indent)
  | group {d : Doc} : Built d → Built (group d)

/-- The string contains a newline character. -/
def HasNewline (s : String) : Prop := '\n' ∈ s.data

instance instDecidableHasNewline (s : String) : Decidable (HasNewline s) :=
  inferInstanceAs (Decidable ('\n' ∈ s.data))

/-- Relation between two pending entries of `format`: same indentation and document,
and the second entry has the same break mode or is in mode `Flat`. -/
def Flatter (a b : DocWithState) : Prop :=
  a.indentation = b.indentation ∧ a.doc = b.doc ∧
    (a.breakMode = b.breakMode ∨ b.breakMode = BreakMode.Flat)

mutual
/-- Whether the sums of nested nest indents stay in the range of `int`: at every
`DocNest` node, `i` plus the indents of the nests from the root down to and including
that node is at most `math.MaxInt64`. -/
def nestSumsInRange : Int → Doc → Bool
  | _, DocNil => true
  | _, DocText _ => true
  | _, DocBreak _ => true
  | i, DocCons cs => nestSumsInRangeList i cs
  | i, DocNest c k => decide (i + k ≤ MaxInt64) && nestSumsInRange (i + k) c
  | i, DocGroup c => nestSumsInRange i c
/-- Every document of the list satisfies `nestSumsInRange i`. -/
def nestSumsInRangeList : Int → List Doc → Bool
  | _, [] => true
  | i, d :: ds => nestSumsInRange i d && nestSumsInRangeList i ds
end

/-- The struct `CssSelector`. -/
structure CssSelector where
  selector : String
  combinator : String

/-- The struct `CssProperty`. -/
structure CssProperty where
  name : String
  value : List String

/-- The type `CssCompoundSelector`, a slice of selectors. -/
abbrev CssCompoundSelector := List CssSelector

/-- The struct `CssRule`. -/
structure CssRule where
  selector : CssCompoundSelector
  properties : List CssProperty

/-- The method `CssProperty.toDoc`. -/
def CssProperty.toDoc (property : CssProperty) : Doc :=
  let valueDoc := property.value.foldl (fun valueDoc s => concatWithBreak valueDoc (text s)) _nil
  let valueDoc := group (nest valueDoc 2)
  concatList [text property.name, text ": ", valueDoc, text ";"]

/-- The method `(*CssSelector).toDoc`. -/
def CssSelector.toDoc (selector : CssSelector) : Doc :=
  concatList [text selector.selector, text " ", text selector.combinator]

/-- The method `(*CssCompoundSelector).toDoc`. -/
def CssCompoundSelector.toDoc (selector : CssCompoundSelector) : Doc :=
  fold CssSelector.toDoc selector

/-- The method `(*CssRule).toDoc`. -/
def CssRule.toDoc (rule : CssRule) : Doc :=
  let selectorDoc := CssCompoundSelector.toDoc rule.selector
  concatList [
    selectorDoc,
    text "\x7b",
    nest (concatList [_break, fold CssProperty.toDoc rule.properties]) 2,
    _break,
    text "\x7d"]

/-- The rule of the CSS scenarios: the single selector `a-tag` with combinator `>`
and the single property `display` with the value token `flex`. -/
def scenarioRule : CssRule :=
  { selector := [{ selector := "a-tag", combinator := ">" }],
    properties := [{ name := "display", value := ["flex"] }] }

mutual
/-- Whether, at every `DocBreak` node of the document, the indentation in effect is
non-negative: `i` and the indents of the enclosing `DocNest` nodes, added up as
`format` does, with Go's wrapping addition. -/
def breakIndentsNonneg : Int → Doc → Bool
  | _, DocNil => true
  | _, DocText _ => true
  | i, DocBreak _ => decide (0 ≤ i)
  | i, DocCons cs => breakIndentsNonnegList i cs
  | i, DocNest c k => breakIndentsNonneg (intAdd i k) c
  | i, DocGroup c => breakIndentsNonneg i c
/-- Every document of the list satisfies `breakIndentsNonneg i`. -/
def breakIndentsNonnegList : Int → List Doc → Bool
  | _, [] => true
  | i, d :: ds => breakIndentsNonneg i d && breakIndentsNonnegList i ds
end

/-! ## The loops, one iteration at a time -/

/-- The variables of the loop of `(*DocGroup).fits`. -/
structure FitsState where
  encounteredBreak : Bool
  breakMode : BreakMode
  docs : List Doc
  c : Int

/-- One iteration of the loop of `(*DocGroup).fits`: `Sum.inl b` is `return b`,
`Sum.inr st` is the state in which the next iteration starts. -/
def fitsStep (width : Int) (st : FitsState) : Bool ⊕ FitsState :=
  if st.c > width ∧ st.encounteredBreak = true then Sum.inl false
  else
    match st.docs with
    | [] => Sum.inl true
    | DocNil :: remain => Sum.inr { st with docs := remain }
    | DocText payload :: remain =>
      Sum.inr { st with docs := remain, c := st.c + runeLen payload }
    | DocBreak payload :: remain =>
      match st.breakMode with
      | BreakMode.Flat =>
        Sum.inr { st with encounteredBreak := true, docs := remain,
                          c := st.c + runeLen payload }
      | BreakMode.Broken => Sum.inr { st with encounteredBreak := true, docs := remain }
      | BreakMode.None => Sum.inr { st with encounteredBreak := true, docs := remain }
    | DocNest payload _ :: remain => Sum.inr { st with docs := payload :: remain }
    | DocCons payload :: remain => Sum.inr { st with docs := payload ++ remain }
    | DocGroup payload :: remain =>
      Sum.inr { st with docs := remain ++ [payload], breakMode := BreakMode.Flat }

/-- At most `n` iterations of the loop of `(*DocGroup).fits`: `some b` when the loop
has returned `b`, `none` when it is still running after `n` iterations. -/
def fitsRun (width : Int) : Nat → FitsState → Option Bool
  | 0, _ => none
  | n + 1, st =>
    match fitsStep width st with
    | Sum.inl b => some b
    | Sum.inr st' => fitsRun width n st'

/-- The variables of the loop of `format`. -/
structure FormatState where
  docs : List DocWithState
  columns : Int
  output : String

/-- The three ways an iteration of the loop of `format` can end. -/
inductive FormatStep where
  | returned (output : String)
  | panicked
  | next (st : FormatState)

/-- One iteration of the loop of `format` (the loop test included): the function
returns its output, or `strings.Repeat` panics, or the next iteration starts. -/
def formatStep (width : Int) (st : FormatState) : FormatStep :=
  match st.docs with
  | [] => FormatStep.returned st.output
  | ⟨_, _, DocNil⟩ :: tail => FormatStep.next { st with docs := tail }
  | ⟨_, _, DocText payload⟩ :: tail =>
    FormatStep.next { docs := tail, columns := st.columns + runeLen payload,
                      output := st.output ++ payload }
  | ⟨indentation, breakMode, DocBreak payload⟩ :: tail =>
    match breakMode with
    | BreakMode.Flat =>
      FormatStep.next { docs := tail, columns := st.columns + runeLen payload,
                        output := st.output ++ payload }
    | BreakMode.Broken | BreakMode.None =>
      match stringsRepeat " " indentation with
      | none => FormatStep.panicked
      | some spaces =>
        FormatStep.next { docs := tail, columns := indentation,
                          output := st.output ++ ("\n" ++ spaces) }
  | ⟨indentation, breakMode, DocNest payload indent⟩ :: tail =>
    FormatStep.next
      { st with docs := ⟨intAdd indentation indent, breakMode, payload⟩ :: tail }
  | ⟨indentation, breakMode, DocCons payload⟩ :: tail =>
    FormatStep.next
      { st with docs := payload.map (fun d => DocWithState.mk indentation breakMode d) ++ tail }
  | ⟨indentation, _, DocGroup payload⟩ :: tail =>
    FormatStep.next
      { st with docs :=
          ⟨indentation, if fits payload (intSub width st.columns) then BreakMode.Flat
                        else BreakMode.Broken, payload⟩ :: tail }

/-- At most `n` iterations of the loop of `format`: `some (some s)` when the function
has returned `s`, `some none` when `strings.Repeat` has panicked, `none` when the
loop is still running after `n` iterations. -/
def formatRun (width : Int) : Nat → FormatState → Option (Option String)
  | 0, _ => none
  | n + 1, st =>
    match formatStep width st with
    | FormatStep.returned s => some (some s)
    | FormatStep.panicked => some none
    | FormatStep.next st' => formatRun width n st'

/-! ## Reference variants for the refinement statements -/

/-- Variant of the loop of `(*DocGroup).fits` in which the payload of a group goes to
the front of the work list, like the payloads of nests and conses, so that pending
nodes are processed in strict left-to-right document order. -/
def fitsFrontLoop (width : Int) (encounteredBreak : Bool) (breakMode : BreakMode)
    (docs : List Doc) (c : Int) : Bool :=
  if c > width ∧ encounteredBreak = true then false
  else
    match docs with
    | [] => true
    | DocNil :: remain => fitsFrontLoop width encounteredBreak breakMode remain c
    | DocText payload :: remain =>
      fitsFrontLoop width encounteredBreak breakMode remain (c + runeLen payload)
    | DocBreak payload :: remain =>
      match breakMode with
      | BreakMode.Flat => fitsFrontLoop width true breakMode remain (c + runeLen payload)
      | BreakMode.Broken => fitsFrontLoop width true breakMode remain c
      | BreakMode.None => fitsFrontLoop width true breakMode remain c
    | DocNest payload _ :: remain =>
      fitsFrontLoop width encounteredBreak breakMode (payload :: remain) c
    | DocCons payload :: remain =>
      fitsFrontLoop width encounteredBreak breakMode (payload ++ remain) c
    | DocGroup payload :: remain =>
      fitsFrontLoop width encounteredBreak BreakMode.Flat (payload :: remain) c
termination_by nodesList docs
decreasing_by
  all_goals simp_wf
  all_goals
    have happ : ∀ xs ys : List Doc, nodesList (xs ++ ys) = nodesList xs + nodesList ys := by
      intro xs ys
      induction xs with
      | nil => simp [nodesList]
      | cons x xs ih => simp [nodesList, ih]; omega
    simp [nodesList, Doc.nodes, happ]

/-- The front-insertion variant of `DocGroup{payload}.fits(width)`. -/
def fitsFront (payload : Doc) (width : Int) : Bool :=
  fitsFrontLoop width false BreakMode.Flat [DocGroup payload] 0

mutual
/-- The structurally recursive renderer `R(i, m, doc, c)` for width `w`: the output
and the new column. -/
def renderR (w : Int) : Int → BreakMode → Doc → Int → String × Int
  | _, _, DocNil, c => ("", c)
  | _, _, DocText s, c => (s, c + runeLen s)
  | i, m, DocBreak s, c =>
    match m with
    | BreakMode.Flat => (s, c + runeLen s)
    | BreakMode.Broken | BreakMode.None => ("\n" ++ spaces i.toNat, i)
  | i, m, DocNest x k, c => renderR w (i + k) m x c
  | i, m, DocCons xs, c => renderRList w i m xs c
  | i, _, DocGroup x, c =>
    renderR w i (if fits x (w - c) then BreakMode.Flat else BreakMode.Broken) x c
/-- The children of a cons rendered left to right by `renderR` with the same `i` and
`m`, threading the column and concatenating the outputs. -/
def renderRList (w : Int) : Int → BreakMode → List Doc → Int → String × Int
  | _, _, [], c => ("", c)
  | i, m, x :: xs, c =>
    ((renderR w i m x c).1 ++ (renderRList w i m xs (renderR w i m x c).2).1,
     (renderRList w i m xs (renderR w i m x c).2).2)
end

theorem wrapInt64_of_isInt64 (x : Int) (h1 : MinInt64 ≤ x) (h2 : x ≤ MaxInt64) :
    wrapInt64 x = x := by
  unfold wrapInt64
  simp only [MinInt64, MaxInt64] at h1 h2
  omega

theorem isInt64_iff (x : Int) : isInt64 x = true ↔ (MinInt64 ≤ x ∧ x ≤ MaxInt64) := by
  simp [isInt64]

/-- Go's subtraction does not wrap when the subtrahend is non-negative and the
difference does not fall below `math.MinInt64`. -/
theorem intSub_eq_sub (a b : Int) (hb : 0 ≤ b) (h : MinInt64 ≤ a - b) :
    intSub a b = a - b := by
  unfold intSub
  split
  · rename_i hr
    rw [Bool.and_eq_true, isInt64_iff, isInt64_iff] at hr
    apply wrapInt64_of_isInt64 _ h
    omega
  · rfl

theorem intSub_zero (a : Int) : intSub a 0 = a := by
  unfold intSub
  split
  · rename_i hr
    rw [Bool.and_eq_true, isInt64_iff, isInt64_iff] at hr
    rw [sub_zero]
    exact wrapInt64_of_isInt64 _ hr.1.1 hr.1.2
  · simp

/-- Go's addition does not wrap on non-negative operands whose sum is at most
`math.MaxInt64`. -/
theorem intAdd_eq_add (a b : Int) (ha : 0 ≤ a) (hb : 0 ≤ b) (h : a + b ≤ MaxInt64) :
    intAdd a b = a + b := by
  unfold intAdd
  split
  · apply wrapInt64_of_isInt64 _ _ h
    simp only [MinInt64]; omega
  · rfl

theorem nodesList_append (xs ys : List Doc) :
    nodesList (xs ++ ys) = nodesList xs + nodesList ys := by
  induction xs with
  | nil => simp [nodesList]
  | cons x xs ih => simp [nodesList, ih]; omega

theorem Doc.nodes_pos (d : Doc) : 0 < d.nodes := by
  cases d <;> simp [Doc.nodes]

theorem hasBreakList_append (xs ys : List Doc) :
    hasBreakList (xs ++ ys) = (hasBreakList xs || hasBreakList ys) := by
  induction xs with
  | nil => simp [hasBreakList]
  | cons x xs ih => simp [hasBreakList, ih, Bool.or_assoc]

theorem flatLenList_append (xs ys : List Doc) :
    flatLenList (xs ++ ys) = flatLenList xs + flatLenList ys := by
  induction xs with
  | nil => simp [flatLenList]
  | cons x xs ih => simp [flatLenList, ih]; omega

theorem runeLen_nonneg (s : String) : 0 ≤ runeLen s := by
  simp [runeLen]

theorem Doc.flatLen_nonneg (d : Doc) : 0 ≤ d.flatLen := by
  refine @Doc.rec (fun d => 0 ≤ d.flatLen) (fun ds => 0 ≤ flatLenList ds)
    ?_ ?_ ?_ ?_ ?_ ?_ ?_ ?_ d
  · simp [Doc.flatLen]
  · intro s; simpa [Doc.flatLen] using runeLen_nonneg s
  · intro s; simpa [Doc.flatLen] using runeLen_nonneg s
  · intro ps ih; simpa [Doc.flatLen] using ih
  · intro q k ih; simpa [Doc.flatLen] using ih
  · intro q ih; simpa [Doc.flatLen] using ih
  · simp [flatLenList]
  · intro x xs h1 h2; simp only [flatLenList]; omega

theorem flatLenList_nonneg (ds : List Doc) : 0 ≤ flatLenList ds := by
  induction ds with
  | nil => simp [flatLenList]
  | cons x xs ih => have := x.flatLen_nonneg; simp only [flatLenList]; omega

/-- Closed form of the loop of `fits` from any loop state whose break mode is `Flat`:
the loop answers `false` exactly when a break has been or will be met and the final
column count exceeds the width. -/
theorem fitsLoop_eq (width : Int) (eb : Bool) (bm : BreakMode) (docs : List Doc) (c : Int) :
    bm = BreakMode.Flat →
    fitsLoop width eb bm docs c
      = !((eb || hasBreakList docs) && decide (width < c + flatLenList docs)) := by
  induction eb, bm, docs, c using fitsLoop.induct width with
  | case1 eb bm docs c h =>
    intro _
    have := flatLenList_nonneg docs
    rw [fitsLoop.eq_def, if_pos h]
    obtain ⟨h1, h2⟩ := h
    subst h2
    simp; omega
  | case2 eb bm c h =>
    intro _
    rw [fitsLoop, if_neg h]
    simp only [hasBreakList, flatLenList, Bool.or_false, add_zero]
    cases eb <;> simp_all
  | case3 eb bm c h remain ih =>
    intro hb
    rw [fitsLoop, if_neg h, ih hb]
    simp [hasBreakList, flatLenList, Doc.hasBreak, Doc.flatLen]
  | case4 eb bm c h payload remain ih =>
    intro hb
    rw [fitsLoop, if_neg h, ih hb]
    simp [hasBreakList, flatLenList, Doc.hasBreak, Doc.flatLen, add_assoc]
  | case5 eb c h payload remain ih =>
    intro hb
    rw [fitsLoop, if_neg h, ih hb]
    simp [hasBreakList, flatLenList, Doc.hasBreak, Doc.flatLen, add_assoc]
  | case6 eb c h payload remain ih => intro hb; cases hb
  | case7 eb c h payload remain ih => intro hb; cases hb
  | case8 eb bm c h payload indent remain ih =>
    intro hb
    rw [fitsLoop, if_neg h, ih hb]
    simp [hasBreakList, flatLenList, Doc.hasBreak, Doc.flatLen]
  | case9 eb bm c h payload remain ih =>
    intro hb
    rw [fitsLoop, if_neg h, ih hb]
    simp [hasBreakList, flatLenList, Doc.hasBreak, Doc.flatLen, hasBreakList_append,
      flatLenList_append, add_assoc]
  | case10 eb bm c h payload remain ih =>
    intro hb
    rw [fitsLoop, if_neg h, ih rfl]
    simp [hasBreakList, flatLenList, Doc.hasBreak, Doc.flatLen, hasBreakList_append,
      flatLenList_append, Bool.or_comm, add_comm]

theorem fits_eq (d : Doc) (w : Int) :
    fits d w = !(d.hasBreak && decide (w < d.flatLen)) := by
  rw [fits, fitsLoop_eq _ _ _ _ _ rfl]
  simp [hasBreakList, flatLenList, Doc.hasBreak, Doc.flatLen]

/-- C1: `DocGroup{d}.fits(w)` returns false exactly when the tree of `d` contains a
break node and the sum of the code-point lengths of all text and break payloads of
the tree (nested nests, conses and groups included) exceeds `w`; in every other case
it returns true (the result is a `Bool`). -/
theorem fits_false_iff (d : Doc) (w : Int) :
    fits d w = false ↔ (d.hasBreak = true ∧ d.flatLen > w) := by
  rw [fits_eq]
  simp

/-- C5: a document without any break node fits in every width `w ≥ 0`, whatever the
length of its text runs. -/
theorem fits_of_no_break (d : Doc) (w : Int) (hb : d.hasBreak = false) (hw : 0 ≤ w) :
    fits d w = true := by
  rw [fits_eq, hb]
  simp

theorem fits_of_no_break_witness :
    Doc.hasBreak (DocCons [DocText "a long run of text", DocNest (DocGroup (DocText "more")) 2])
        = false ∧ (0 : Int) ≤ 3 ∧
      fits (DocCons [DocText "a long run of text", DocNest (DocGroup (DocText "more")) 2]) 3
        = true :=
  ⟨by decide, by decide, fits_of_no_break _ 3 (by decide) (by decide)⟩

theorem flatList_append (xs ys : List Doc) :
    flatList (xs ++ ys) = flatList xs ++ flatList ys := by
  induction xs with
  | nil => simp [flatList]
  | cons x xs ih => simp [flatList, ih, String.append_assoc]

/-- A run of the loop of `format` from a work list whose entries are all in mode
`Flat`, under the invariant that the rest of the line fits whenever a break is
still pending, never breaks a line and never panics. -/
theorem formatLoop_flat (width : Int) (docs : List DocWithState) (columns : Int)
    (output : String) :
    (∀ s ∈ docs, s.breakMode = BreakMode.Flat) →
    0 ≤ columns →
    (hasBreakList (statesDocs docs) = true →
      columns + flatLenList (statesDocs docs) ≤ width) →
    formatLoop width docs columns output = some (output ++ flatList (statesDocs docs)) := by
  induction docs, columns, output using formatLoop.induct width with
  | case1 columns output => intro _ _ _; simp [formatLoop, statesDocs, flatList]
  | case2 columns output i m tail ih =>
    intro hm hc hw
    rw [formatLoop, ih (fun s hs => hm s (List.mem_cons_of_mem _ hs)) hc]
    · simp [statesDocs, flatList, Doc.flat]
    · simpa [statesDocs, hasBreakList, flatLenList, Doc.hasBreak, Doc.flatLen] using hw
  | case3 columns output i m payload tail ih =>
    intro hm hc hw
    have hp := runeLen_nonneg payload
    rw [formatLoop, ih (fun s hs => hm s (List.mem_cons_of_mem _ hs)) (by omega)]
    · simp [statesDocs, flatList, Doc.flat, String.append_assoc]
    · simpa [statesDocs, hasBreakList, flatLenList, Doc.hasBreak, Doc.flatLen, add_assoc]
        using hw
  | case4 columns output i payload tail ih =>
    intro hm hc hw
    have hp := runeLen_nonneg payload
    rw [formatLoop, ih (fun s hs => hm s (List.mem_cons_of_mem _ hs)) (by omega)]
    · simp [statesDocs, flatList, Doc.flat, String.append_assoc]
    · intro _
      simpa [statesDocs, hasBreakList, flatLenList, Doc.hasBreak, Doc.flatLen, add_assoc]
        using hw
  | case5 columns output i payload tail h =>
    intro hm _ _; have := hm _ (List.mem_cons_self _ _); cases this
  | case6 columns output i payload tail sp h ih =>
    intro hm _ _; have := hm _ (List.mem_cons_self _ _); cases this
  | case7 columns output i payload tail h =>
    intro hm _ _; have := hm _ (List.mem_cons_self _ _); cases this
  | case8 columns output i payload tail sp h ih =>
    intro hm _ _; have := hm _ (List.mem_cons_self _ _); cases this
  | case9 columns output i m payload indent tail ih =>
    intro hm hc hw
    have h0 : m = BreakMode.Flat := hm _ (List.mem_cons_self _ _)
    rw [formatLoop, ih _ hc]
    · simp [statesDocs, flatList, Doc.flat]
    · simpa [statesDocs, hasBreakList, flatLenList, Doc.hasBreak, Doc.flatLen] using hw
    · intro s hs
      rcases List.mem_cons.1 hs with rfl | hs
      · exact h0
      · exact hm s (List.mem_cons_of_mem _ hs)
  | case10 columns output i m payload tail ih =>
    intro hm hc hw
    have h0 : m = BreakMode.Flat := hm _ (List.mem_cons_self _ _)
    have e : statesDocs (List.map (fun d => DocWithState.mk i m d) payload ++ tail)
        = payload ++ statesDocs tail := by
      simp [statesDocs, Function.comp_def]
    rw [formatLoop, ih _ hc]
    · rw [e]; simp [statesDocs, flatList, Doc.flat, flatList_append]
    · rw [e]
      simpa [statesDocs, hasBreakList, flatLenList, Doc.hasBreak, Doc.flatLen,
        hasBreakList_append, flatLenList_append] using hw
    · intro s hs
      rcases List.mem_append.1 hs with hs | hs
      · obtain ⟨d, _, rfl⟩ := List.mem_map.1 hs
        exact h0
      · exact hm s (List.mem_cons_of_mem _ hs)
  | case11 columns output i m payload tail ih =>
    intro hm hc hw
    have hfit : fits payload (intSub width columns) = true := by
      rw [fits_eq]
      simp only [Bool.not_eq_true', Bool.and_eq_false_iff, decide_eq_false_iff_not]
      by_cases hb : payload.hasBreak = true
      · right
        have h1 := hw (by simp [statesDocs, hasBreakList, Doc.hasBreak, hb])
        have h2 := flatLenList_nonneg (statesDocs tail)
        have h3 := payload.flatLen_nonneg
        simp only [statesDocs, List.map_cons, flatLenList, Doc.flatLen] at h1 h2
        rw [intSub_eq_sub width columns hc (by simp only [MinInt64]; omega)]
        omega
      · left; simpa using hb
    simp only [hfit, dite_eq_ite, if_true] at ih
    rw [formatLoop]
    simp only [hfit, if_true]
    rw [ih _ hc]
    · simp [statesDocs, flatList, Doc.flat]
    · simpa [statesDocs, hasBreakList, flatLenList, Doc.hasBreak, Doc.flatLen] using hw
    · intro s hs
      rcases List.mem_cons.1 hs with rfl | hs
      · rfl
      · exact hm s (List.mem_cons_of_mem _ hs)

/-- C2: when `DocGroup{d}.fits(w)` holds, `format(group(d), w)` succeeds and is the
flat rendering of `d`: every text payload and every break fallback payload in
document order; no break yields a newline or indentation, nested groups are all
resolved flat and nests have no effect. -/
theorem format_group_of_fits (d : Doc) (w : Int) (h : fits d w = true) :
    format (group d) w = some d.flat := by
  have hfit : fits d (intSub w 0) = true := by rw [intSub_zero]; exact h
  rw [format, group, formatLoop]
  simp only [hfit, if_true]
  rw [formatLoop_flat]
  · simp [statesDocs, flatList]
  · simp
  · exact le_rfl
  · intro hb
    rw [fits_eq] at h
    simp only [statesDocs, List.map_cons, List.map_nil, hasBreakList, Bool.or_false] at hb
    simp only [hb, Bool.true_and, Bool.not_eq_true', decide_eq_false_iff_not] at h
    simp only [statesDocs, List.map_cons, List.map_nil, flatLenList]
    omega

theorem format_group_of_fits_witness :
    fits (DocCons [DocText "a", DocBreak " ",
        DocNest (DocGroup (DocCons [DocText "b", DocBreak ",", DocText "c"])) 2]) 10 = true ∧
      format (group (DocCons [DocText "a", DocBreak " ",
        DocNest (DocGroup (DocCons [DocText "b", DocBreak ",", DocText "c"])) 2])) 10
        = some "a b,c" :=
  ⟨by simp [fits, fitsLoop, runeLen, String.length],
   format_group_of_fits _ 10 (by simp [fits, fitsLoop, runeLen, String.length])⟩

theorem hasNewline_append (a b : String) :
    HasNewline (a ++ b) ↔ HasNewline a ∨ HasNewline b := by
  simp [HasNewline]

/-- The result of the loop of `format` extends the output accumulated so far. -/
theorem formatLoop_extends (width : Int) (docs : List DocWithState) (columns : Int)
    (output : String) :
    ∀ s, formatLoop width docs columns output = some s → ∃ t, s = output ++ t := by
  induction docs, columns, output using formatLoop.induct width with
  | case1 columns output =>
    intro s h; rw [formatLoop] at h; exact ⟨"", by simpa using h.symm⟩
  | case2 columns output i m tail ih => intro s h; rw [formatLoop] at h; exact ih s h
  | case3 columns output i m payload tail ih =>
    intro s h; rw [formatLoop] at h
    obtain ⟨t, ht⟩ := ih s h
    exact ⟨payload ++ t, by rw [ht, String.append_assoc]⟩
  | case4 columns output i payload tail ih =>
    intro s h; rw [formatLoop] at h
    obtain ⟨t, ht⟩ := ih s h
    exact ⟨payload ++ t, by rw [ht, String.append_assoc]⟩
  | case5 columns output i payload tail hr =>
    intro s h; rw [formatLoop] at h; simp [hr] at h
  | case6 columns output i payload tail sp hr ih =>
    intro s h; rw [formatLoop] at h; simp only [hr] at h
    obtain ⟨t, ht⟩ := ih s h
    exact ⟨("\n" ++ sp) ++ t, by rw [ht, String.append_assoc]⟩
  | case7 columns output i payload tail hr =>
    intro s h; rw [formatLoop] at h; simp [hr] at h
  | case8 columns output i payload tail sp hr ih =>
    intro s h; rw [formatLoop] at h; simp only [hr] at h
    obtain ⟨t, ht⟩ := ih s h
    exact ⟨("\n" ++ sp) ++ t, by rw [ht, String.append_assoc]⟩
  | case9 columns output i m payload indent tail ih =>
    intro s h; rw [formatLoop] at h; exact ih s h
  | case10 columns output i m payload tail ih =>
    intro s h; rw [formatLoop] at h; exact ih s h
  | case11 columns output i m payload tail ih =>
    intro s h; rw [formatLoop] at h
    simp only [dite_eq_ite] at ih
    exact ih s h

theorem fits_mono (d : Doc) (w w' : Int) (hw : w ≤ w') (h : fits d w = true) :
    fits d w' = true := by
  rw [fits_eq] at h ⊢
  simp only [Bool.not_eq_true', Bool.and_eq_false_iff, decide_eq_false_iff_not] at h ⊢
  rcases h with h | h
  · exact Or.inl h
  · right; omega

theorem hasNewline_of_break (width : Int) (tail : List DocWithState) (i : Int)
    (output sp s : String)
    (h : formatLoop width tail i (output ++ ("\n" ++ sp)) = some s) : HasNewline s := by
  obtain ⟨t, rfl⟩ := formatLoop_extends _ _ _ _ s h
  simp [HasNewline]

/-- Two runs of the loop of `format` at widths `w ≤ w'`, from the same columns and
output and from work lists related by `Flatter`, where `columns` plus the flat length
of the pending documents stays below a bound `B` with `MinInt64 + B ≤ w` (so that
`width - columns` does not wrap): when the run at `w` ends without a newline, the run
at `w'` ends with the same string. -/
theorem formatLoop_mono (w w' : Int) (hw : w ≤ w') (B : Int) (hB : MinInt64 + B ≤ w)
    (docs : List DocWithState) (columns : Int) (output : String) :
    ∀ docs' s, List.Forall₂ Flatter docs docs' →
      0 ≤ columns → columns + flatLenList (statesDocs docs) ≤ B →
      formatLoop w docs columns output = some s → ¬ HasNewline s →
      formatLoop w' docs' columns output = some s := by
  induction docs, columns, output using formatLoop.induct w with
  | case1 columns output =>
    intro docs' s hrel _ _ h _
    cases hrel
    rw [formatLoop] at h ⊢; exact h
  | case2 columns output i m tail ih =>
    intro docs' s hrel hc hb h hn
    cases hrel with
    | cons hb' htl =>
      rename_i b tail'
      obtain ⟨i', m', d'⟩ := b
      obtain ⟨h1, h2, _⟩ := hb'
      simp only at h1 h2
      subst h1 h2
      rw [formatLoop] at h ⊢
      refine ih _ s htl hc ?_ h hn
      simpa [statesDocs, flatLenList, Doc.flatLen] using hb
  | case3 columns output i m payload tail ih =>
    intro docs' s hrel hc hb h hn
    cases hrel with
    | cons hb' htl =>
      rename_i b tail'
      obtain ⟨i', m', d'⟩ := b
      obtain ⟨h1, h2, _⟩ := hb'
      simp only at h1 h2
      subst h1 h2
      rw [formatLoop] at h ⊢
      have hp := runeLen_nonneg payload
      refine ih _ s htl (by omega) ?_ h hn
      simpa [statesDocs, flatLenList, Doc.flatLen, add_assoc] using hb
  | case4 columns output i payload tail ih =>
    intro docs' s hrel hc hb h hn
    cases hrel with
    | cons hb' htl =>
      rename_i b tail'
      obtain ⟨i', m', d'⟩ := b
      obtain ⟨h1, h2, h3⟩ := hb'
      simp only at h1 h2 h3
      have hm : m' = BreakMode.Flat := by rcases h3 with h3 | h3 <;> simp [h3]
      subst h1 h2 hm
      rw [formatLoop] at h ⊢
      have hp := runeLen_nonneg payload
      refine ih _ s htl (by omega) ?_ h hn
      simpa [statesDocs, flatLenList, Doc.flatLen, add_assoc] using hb
  | case5 columns output i payload tail hr =>
    intro docs' s hrel _ _ h hn
    rw [formatLoop] at h; simp [hr] at h
  | case6 columns output i payload tail sp hr ih =>
    intro docs' s hrel _ _ h hn
    rw [formatLoop] at h; simp only [hr] at h
    exact absurd (hasNewline_of_break _ _ _ _ _ _ h) hn
  | case7 columns output i payload tail hr =>
    intro docs' s hrel _ _ h hn
    rw [formatLoop] at h; simp [hr] at h
  | case8 columns output i payload tail sp hr ih =>
    intro docs' s hrel _ _ h hn
    rw [formatLoop] at h; simp only [hr] at h
    exact absurd (hasNewline_of_break _ _ _ _ _ _ h) hn
  | case9 columns output i m payload indent tail ih =>
    intro docs' s hrel hc hb h hn
    cases hrel with
    | cons hb' htl =>
      rename_i b tail'
      obtain ⟨i', m', d'⟩ := b
      obtain ⟨h1, h2, h3⟩ := hb'
      simp only at h1 h2 h3
      subst h1 h2
      rw [formatLoop] at h ⊢
      refine ih _ s (List.Forall₂.cons ⟨rfl, rfl, h3⟩ htl) hc ?_ h hn
      simpa [statesDocs, flatLenList, Doc.flatLen] using hb
  | case10 columns output i m payload tail ih =>
    intro docs' s hrel hc hb h hn
    cases hrel with
    | cons hb' htl =>
      rename_i b tail'
      obtain ⟨i', m', d'⟩ := b
      obtain ⟨h1, h2, h3⟩ := hb'
      simp only at h1 h2 h3
      subst h1 h2
      rw [formatLoop] at h ⊢
      refine ih _ s ?_ hc ?_ h hn
      · refine List.rel_append ?_ htl
        rw [List.forall₂_map_left_iff, List.forall₂_map_right_iff]
        exact List.forall₂_same.2 (fun d _ => ⟨rfl, rfl, h3⟩)
      · have e : statesDocs (List.map (fun d => DocWithState.mk i m d) payload ++ tail)
            = payload ++ statesDocs tail := by
          simp [statesDocs, Function.comp_def]
        rw [e, flatLenList_append]
        simpa [statesDocs, flatLenList, Doc.flatLen, add_assoc] using hb
  | case11 columns output i m payload tail ih =>
    intro docs' s hrel hc hb h hn
    cases hrel with
    | cons hb' htl =>
      rename_i b tail'
      obtain ⟨i', m', d'⟩ := b
      obtain ⟨h1, h2, _⟩ := hb'
      simp only at h1 h2
      subst h1 h2
      rw [formatLoop] at h ⊢
      simp only [dite_eq_ite] at ih
      have hf1 := flatLenList_nonneg (statesDocs tail)
      have hf2 := payload.flatLen_nonneg
      have hb2 : columns + (payload.flatLen + flatLenList (statesDocs tail)) ≤ B := by
        simpa [statesDocs, flatLenList, Doc.flatLen] using hb
      have e1 : intSub w columns = w - columns :=
        intSub_eq_sub w columns hc (by omega)
      have e2 : intSub w' columns = w' - columns :=
        intSub_eq_sub w' columns hc (by omega)
      refine ih _ s (List.Forall₂.cons ⟨rfl, rfl, ?_⟩ htl) hc ?_ h hn
      · rw [e1, e2]
        by_cases hf : fits payload (w - columns) = true
        · have hf' := fits_mono payload (w - columns) (w' - columns) (by omega) hf
          simp [hf, hf']
        · by_cases hf' : fits payload (w' - columns) = true
          · simp [hf']
          · simp [hf, hf']
      · simpa [statesDocs, flatLenList, Doc.flatLen] using hb

/-- C3, as the code behaves: for widths `w ≤ w'` such that `w` minus the flat length
of `d` (the total code-point length of its text and break payloads) does not fall
below `math.MinInt64`, when `format(d, w)` returns a string without a newline
character, `format(d, w')` returns a string without a newline character as well
(indeed the same string). -/
theorem format_no_newline_mono (d : Doc) (w w' : Int) (s : String)
    (hr : MinInt64 + d.flatLen ≤ w) (hw : w ≤ w')
    (hs : format d w = some s) (hn : ¬ HasNewline s) :
    ∃ s', format d w' = some s' ∧ ¬ HasNewline s' := by
  refine ⟨s, ?_, hn⟩
  refine formatLoop_mono w w' hw d.flatLen hr _ 0 "" _ s
    (List.Forall₂.cons ⟨rfl, rfl, Or.inl rfl⟩ List.Forall₂.nil) le_rfl ?_ hs hn
  simp [statesDocs, flatLenList]

theorem format_no_newline_mono_witness :
    MinInt64 + Doc.flatLen (DocGroup (DocCons [DocGroup (DocCons [DocText "a",
        DocBreak " "]), DocText "bbbb"])) ≤ 3 ∧
      (3 : Int) ≤ 6 ∧
      format (DocGroup (DocCons [DocGroup (DocCons [DocText "a", DocBreak " "]),
        DocText "bbbb"])) 3 = some "a bbbb" ∧
      ¬ HasNewline "a bbbb" ∧
      ∃ s', format (DocGroup (DocCons [DocGroup (DocCons [DocText "a", DocBreak " "]),
        DocText "bbbb"])) 6 = some s' ∧ ¬ HasNewline s' :=
  ⟨by decide, by decide,
   by simp [format, formatLoop, fits, fitsLoop, runeLen, String.length, intSub, isInt64,
     wrapInt64, MinInt64, MaxInt64],
   by decide,
   format_no_newline_mono _ 3 6 "a bbbb" (by decide) (by decide)
     (by simp [format, formatLoop, fits, fitsLoop, runeLen, String.length, intSub, isInt64,
       wrapInt64, MinInt64, MaxInt64]) (by decide)⟩

/-- C3, as stated, fails: for `d = Cons[a, group(Cons[b, break, c])]` and the widths
`math.MinInt64 ≤ 0`, the difference `width - columns` wraps around at `math.MinInt64`,
the group is resolved flat and `format` returns `ab c` without a newline, while at
width 0 the group is broken and the result has a newline. -/
theorem format_no_newline_not_mono :
    MinInt64 ≤ 0 ∧
      format (DocCons [DocText "a", DocGroup (DocCons [DocText "b", DocBreak " ",
        DocText "c"])]) MinInt64 = some "ab c" ∧
      ¬ HasNewline "ab c" ∧
      format (DocCons [DocText "a", DocGroup (DocCons [DocText "b", DocBreak " ",
        DocText "c"])]) 0 = some "ab\nc" ∧
      HasNewline "ab\nc" := by
  refine ⟨by decide, ?_, by decide, ?_, by decide⟩
  · simp [format, formatLoop, fits, fitsLoop, runeLen, String.length, intSub, isInt64,
      wrapInt64, MinInt64, MaxInt64]
  · simp [format, formatLoop, fits, fitsLoop, runeLen, String.length, intSub, isInt64,
      wrapInt64, MinInt64, MaxInt64, stringsRepeat, String.join]

theorem concatWithBreak_nil_right (d1 : Doc) : concatWithBreak d1 _nil = d1 := by
  cases d1 <;> rfl

/-- C6: `_nil()` is the identity of `concatWithBreak`: `concatWithBreak(_nil(), d2)`
is `d2` itself and `concatWithBreak(d1, _nil())` is `d1` itself, no break being
inserted, so both render like `d2`, respectively `d1`, at every width. -/
theorem concatWithBreak_nil (d1 d2 : Doc) (w : Int) :
    concatWithBreak _nil d2 = d2 ∧ concatWithBreak d1 _nil = d1 ∧
      format (concatWithBreak _nil d2) w = format d2 w ∧
      format (concatWithBreak d1 _nil) w = format d1 w := by
  have h1 : concatWithBreak _nil d2 = d2 := rfl
  have h2 : concatWithBreak d1 _nil = d1 := concatWithBreak_nil_right d1
  exact ⟨h1, h2, by rw [h1], by rw [h2]⟩

theorem concat_eq_children (a b : Doc) :
    concat a b = DocCons (children a ++ children b) := by
  cases a <;> cases b <;> simp [concat, children]

theorem concatWithBreak_of_not_nil (a x : Doc) (ha : a.isNil = false)
    (hx : x.isNil = false) :
    concatWithBreak a x = DocCons (children a ++ DocBreak " " :: children x) := by
  have h : concatWithBreak a x = concat (concat a _break) x := by
    cases a <;> cases x <;> simp_all [concatWithBreak, Doc.isNil]
  rw [h, concat_eq_children, concat_eq_children]
  simp [children, _break]

theorem foldl_concatWithBreak_of_not_nil (l : List Doc) :
    ∀ acc : Doc, acc.isNil = false →
      l.foldl (fun doc d => concatWithBreak doc d) acc =
        match l.filter (fun d => !d.isNil) with
        | [] => acc
        | e :: es => DocCons (children acc ++ breakSeparated (e :: es)) := by
  induction l with
  | nil => intro acc _; simp
  | cons x xs ih =>
    intro acc hacc
    by_cases hx : x.isNil = true
    · have hx' : x = _nil := by cases x <;> simp_all [Doc.isNil, _nil]
      subst hx'
      simp only [List.foldl_cons, concatWithBreak_nil_right]
      rw [ih acc hacc]
      simp [List.filter_cons, hx]
    · have hx' : x.isNil = false := by simpa using hx
      simp only [List.foldl_cons]
      rw [concatWithBreak_of_not_nil acc x hacc hx', ih _ (by simp [Doc.isNil])]
      simp only [List.filter_cons, hx', Bool.not_false, if_true]
      cases List.filter (fun d => !d.isNil) xs with
      | nil => simp [breakSeparated]
      | cons e es => simp [children, breakSeparated]

theorem foldl_concatWithBreak_nil (l : List Doc) :
    l.foldl (fun doc d => concatWithBreak doc d) DocNil
      = foldSpec (l.filter (fun d => !d.isNil)) := by
  induction l with
  | nil => simp [foldSpec]
  | cons x xs ih =>
    by_cases hx : x.isNil = true
    · have hx' : x = DocNil := by cases x <;> simp_all [Doc.isNil]
      subst hx'
      simp only [List.foldl_cons, List.filter_cons]
      simpa [concatWithBreak, Doc.isNil] using ih
    · have hx' : x.isNil = false := by simpa using hx
      have h0 : concatWithBreak DocNil x = x := rfl
      simp only [List.foldl_cons, h0]
      rw [foldl_concatWithBreak_of_not_nil xs x hx']
      simp only [List.filter_cons, hx', Bool.not_false, if_true]
      cases List.filter (fun d => !d.isNil) xs with
      | nil => simp [foldSpec]
      | cons e es => simp [foldSpec]

theorem fold_eq_foldl_map {T : Type} (toDoc : T → Doc) (items : List T) (acc : Doc) :
    items.foldl (fun doc i => concatWithBreak doc (toDoc i)) acc
      = (items.map toDoc).foldl (fun doc d => concatWithBreak doc d) acc := by
  rw [List.foldl_map]

/-- C7: with `e1, ..., ek` the documents of the items that are not `DocNil`, in order,
`fold(items)` is `DocNil` when `k = 0`, is `e1` when `k = 1`, and for `k ≥ 2` is the
cons whose children are `children(e1) ++ [Break " "] ++ children(e2) ++ ... ++
[Break " "] ++ children(ek)`: one break between consecutive non-nil items, none
leading, none trailing, none next to a nil item. -/
theorem fold_eq_foldSpec {T : Type} (toDoc : T → Doc) (items : List T) :
    fold toDoc items = foldSpec ((items.map toDoc).filter (fun d => !d.isNil)) := by
  rw [fold, fold_eq_foldl_map]
  exact foldl_concatWithBreak_nil _

/-- C8: when every item of the list maps to `DocNil` (the list may be empty),
`format(fold(items), w)` is the empty string at every width `w`. -/
theorem format_fold_all_nil {T : Type} (toDoc : T → Doc) (items : List T) (w : Int)
    (h : ∀ i ∈ items, toDoc i = DocNil) :
    format (fold toDoc items) w = some "" := by
  have hf : (items.map toDoc).filter (fun d => !d.isNil) = [] := by
    rw [List.filter_eq_nil_iff]
    intro d hd
    obtain ⟨i, hi, rfl⟩ := List.mem_map.1 hd
    simp [h i hi, Doc.isNil]
  rw [fold_eq_foldSpec, hf]
  simp [foldSpec, format, formatLoop]

theorem format_fold_all_nil_witness :
    (∀ i ∈ [1, 2, 3], (fun _ : Nat => _nil) i = DocNil) ∧
      format (fold (fun _ : Nat => _nil) [1, 2, 3]) 40 = some "" :=
  ⟨fun _ _ => rfl, format_fold_all_nil (fun _ : Nat => _nil) [1, 2, 3] 40 (fun _ _ => rfl)⟩

/-- C9: `concat(a, b)` is the cons whose children are `children(a) ++ children(b)`,
where `children(x)` is the payload of a cons `x` and `[x]` otherwise; nothing is
inserted and the order of the children is kept. -/
theorem concat_children (a b : Doc) :
    concat a b = DocCons (children a ++ children b) :=
  concat_eq_children a b

theorem noConsConsList_append (xs ys : List Doc) :
    noConsConsList (xs ++ ys) = (noConsConsList xs && noConsConsList ys) := by
  induction xs with
  | nil => simp [noConsConsList]
  | cons x xs ih => simp [noConsConsList, ih, Bool.and_assoc]

theorem children_noConsCons (a : Doc) (h : a.noConsCons = true) :
    (children a).all (fun d => !d.isCons) = true ∧ noConsConsList (children a) = true := by
  cases a <;> simp_all [children, Doc.noConsCons, noConsConsList, Doc.isCons]

theorem concat_noConsCons (a b : Doc) (ha : a.noConsCons = true)
    (hb : b.noConsCons = true) : (concat a b).noConsCons = true := by
  obtain ⟨a1, a2⟩ := children_noConsCons a ha
  obtain ⟨b1, b2⟩ := children_noConsCons b hb
  rw [concat_eq_children]
  simp only [Doc.noConsCons, List.all_append, noConsConsList_append, a1, a2, b1, b2,
    Bool.and_self]

theorem concatWithBreak_noConsCons (a b : Doc) (ha : a.noConsCons = true)
    (hb : b.noConsCons = true) : (concatWithBreak a b).noConsCons = true := by
  by_cases h1 : a.isNil = true
  · have : a = DocNil := by cases a <;> simp_all [Doc.isNil]
    subst this
    exact hb
  · by_cases h2 : b.isNil = true
    · have : b = _nil := by cases b <;> simp_all [Doc.isNil, _nil]
      subst this
      rw [concatWithBreak_nil_right]; exact ha
    · have e : concatWithBreak a b = concat (concat a _break) b := by
        cases a <;> cases b <;> simp_all [concatWithBreak, Doc.isNil]
      rw [e]
      exact concat_noConsCons _ _ (concat_noConsCons _ _ ha rfl) hb

theorem concatList_noConsCons (ds : List Doc) (h : ∀ d ∈ ds, d.noConsCons = true) :
    (concatList ds).noConsCons = true := by
  have key : ∀ (l : List Doc) (acc : Doc), acc.noConsCons = true →
      (∀ d ∈ l, d.noConsCons = true) →
      (l.foldl (fun doc d => concat doc d) acc).noConsCons = true := by
    intro l
    induction l with
    | nil => intro acc hacc _; simpa using hacc
    | cons x xs ih =>
      intro acc hacc hl
      simp only [List.foldl_cons]
      exact ih _ (concat_noConsCons _ _ hacc (hl x (List.mem_cons_self _ _)))
        (fun d hd => hl d (List.mem_cons_of_mem _ hd))
  exact key ds _nil rfl h

theorem fold_noConsCons {T : Type} (toDoc : T → Doc) (items : List T)
    (h : ∀ i ∈ items, (toDoc i).noConsCons = true) :
    (fold toDoc items).noConsCons = true := by
  have key : ∀ (l : List T) (acc : Doc), acc.noConsCons = true →
      (∀ i ∈ l, (toDoc i).noConsCons = true) →
      (l.foldl (fun doc i => concatWithBreak doc (toDoc i)) acc).noConsCons = true := by
    intro l
    induction l with
    | nil => intro acc hacc _; simpa using hacc
    | cons x xs ih =>
      intro acc hacc hl
      simp only [List.foldl_cons]
      exact ih _ (concatWithBreak_noConsCons _ _ hacc (hl x (List.mem_cons_self _ _)))
        (fun d hd => hl d (List.mem_cons_of_mem _ hd))
  exact key items _nil rfl h

/-- C10: every document built only with `_nil`, `text`, `_break`, `breakWith`, `concat`,
`concatList`, `concatWithBreak`, `fold` (over items whose documents are built the same
way), `nest` and `group` satisfies the invariant that no cons node has a cons node as
a direct child. -/
theorem built_noConsCons (d : Doc) (h : Built d) : d.noConsCons = true := by
  induction h with
  | nil => rfl
  | text s => rfl
  | brk => rfl
  | breakWith s => rfl
  | concat _ _ iha ihb => exact concat_noConsCons _ _ iha ihb
  | concatList _ ih => exact concatList_noConsCons _ ih
  | concatWithBreak _ _ iha ihb => exact concatWithBreak_noConsCons _ _ iha ihb
  | fold toDoc items _ ih => exact fold_noConsCons toDoc items ih
  | nest indent _ ih => simpa [nest, Doc.noConsCons] using ih
  | group _ ih => simpa [group, Doc.noConsCons] using ih

theorem built_noConsCons_witness :
    Built (group (nest (concat (concat (text "a") (text "b"))
        (concatWithBreak (concat _break (text "c")) (breakWith ","))) 2)) ∧
      Doc.noConsCons (group (nest (concat (concat (text "a") (text "b"))
        (concatWithBreak (concat _break (text "c")) (breakWith ","))) 2)) = true :=
  ⟨Built.group (Built.nest 2 (Built.concat (Built.concat (Built.text "a") (Built.text "b"))
      (Built.concatWithBreak (Built.concat Built.brk (Built.text "c")) (Built.breakWith ",")))),
   built_noConsCons _ (Built.group (Built.nest 2 (Built.concat
      (Built.concat (Built.text "a") (Built.text "b"))
      (Built.concatWithBreak (Built.concat Built.brk (Built.text "c"))
        (Built.breakWith ",")))))⟩

/-- C11: `format(group(nest(concat(breakWith(""), fold([text("a"), text("b")])), 2)), 2)`
puts "a" and "b" each on its own line indented by two spaces: the group does not fit
in width 2, is resolved broken, and the output is a newline, two spaces, "a", a
newline, two spaces, "b". -/
theorem format_nest_fold_scenario :
    fits (nest (concat (breakWith "") (fold id [text "a", text "b"])) 2) (2 - 0) = false ∧
      format (group (nest (concat (breakWith "") (fold id [text "a", text "b"])) 2)) 2
        = some "\n  a\n  b" := by
  have hd : nest (concat (breakWith "") (fold id [text "a", text "b"])) 2
      = DocNest (DocCons [DocBreak "", DocText "a", DocBreak " ", DocText "b"]) 2 := rfl
  rw [hd, group]
  constructor
  · simp [fits, fitsLoop, runeLen, String.length]
  · simp [format, formatLoop, intSub, intAdd, isInt64, wrapInt64, MinInt64, MaxInt64,
      fits, fitsLoop, runeLen, String.length, stringsRepeat,
      String.join]

theorem scenarioRule_toDoc :
    CssRule.toDoc scenarioRule =
      DocCons [DocNil, DocNil, DocText "a-tag", DocText " ", DocText ">", DocText "\x7b",
        DocNest (DocCons [DocNil, DocBreak " ", DocNil, DocText "display", DocText ": ",
          DocGroup (DocNest (DocText "flex") 2), DocText ";"]) 2,
        DocBreak " ", DocText "\x7d"] := rfl

/-- C12, as the code behaves: `format(rule.toDoc(), 60)` for the scenario rule is
`a-tag >` immediately followed by the opening brace (the selector renders as selector,
space, combinator and the rule appends the brace with nothing in between), then the
property on its own line indented by two spaces, then the closing brace on its own
line. -/
theorem format_scenarioRule_60 :
    format (CssRule.toDoc scenarioRule) 60 = some "a-tag >\x7b\n  display: flex;\n\x7d" := by
  rw [scenarioRule_toDoc]
  simp [format, formatLoop, intSub, intAdd, isInt64, wrapInt64, MinInt64, MaxInt64,
      fits, fitsLoop, runeLen, String.length, stringsRepeat,
    String.join]

/-- C12, as stated, fails: the output of `format(rule.toDoc(), 60)` for the scenario
rule is not the string with a space between the combinator `>` and the opening
brace. -/
theorem format_scenarioRule_60_ne :
    format (CssRule.toDoc scenarioRule) 60 ≠ some "a-tag > \x7b\n  display: flex;\n\x7d" := by
  rw [scenarioRule_toDoc]
  simp [format, formatLoop, intSub, intAdd, isInt64, wrapInt64, MinInt64, MaxInt64,
      fits, fitsLoop, runeLen, String.length, stringsRepeat,
    String.join]

theorem singleToken_toDoc (n v : String) :
    CssProperty.toDoc { name := n, value := [v] } =
      DocCons [DocNil, DocText n, DocText ": ", DocGroup (DocNest (DocText v) 2),
        DocText ";"] := rfl

/-- C13: at width 5 the scenario rule still keeps `display: flex;` together on one
line, and for every width `w` a property with name `n` and the single value token `v`
renders as `n ++ ": " ++ v ++ ";"`; that string has no newline except those inside `n`
or `v` themselves, as the value group holds no break. -/
theorem format_single_token_property (n v : String) (w : Int) :
    format (CssProperty.toDoc { name := n, value := [v] }) w = some (n ++ ": " ++ v ++ ";") ∧
      (HasNewline (n ++ ": " ++ v ++ ";") ↔ (HasNewline n ∨ HasNewline v)) ∧
      Doc.hasBreak (DocNest (DocText v) 2) = false ∧
      format (CssRule.toDoc scenarioRule) 5
        = some ("a-tag >\x7b\n  " ++ "display: flex;" ++ "\n\x7d") := by
  refine ⟨?_, ?_, rfl, ?_⟩
  · rw [singleToken_toDoc]
    simp [format, formatLoop, intSub, intAdd, isInt64, wrapInt64, MinInt64, MaxInt64,
        fits_eq, Doc.hasBreak, String.append_assoc]
  · simp [HasNewline]
  · rw [scenarioRule_toDoc]
    simp [format, formatLoop, intSub, intAdd, isInt64, wrapInt64, MinInt64, MaxInt64,
        fits, fitsLoop, runeLen, String.length, stringsRepeat,
      String.join]

/-- A document whose nest indents are non-negative and sum, along nested nests, to at
most `math.MaxInt64` has no break at a negative indentation, from any non-negative
starting indentation. -/
theorem breakIndentsNonneg_of_nestNonneg (d : Doc) :
    ∀ i : Int, 0 ≤ i → d.nestNonneg = true → nestSumsInRange i d = true →
      breakIndentsNonneg i d = true := by
  refine @Doc.rec
    (fun d => ∀ i : Int, 0 ≤ i → d.nestNonneg = true → nestSumsInRange i d = true →
      breakIndentsNonneg i d = true)
    (fun ds => ∀ i : Int, 0 ≤ i → nestNonnegList ds = true →
      nestSumsInRangeList i ds = true → breakIndentsNonnegList i ds = true)
    ?_ ?_ ?_ ?_ ?_ ?_ ?_ ?_ d
  · intro i _ _ _; rfl
  · intro s i _ _ _; rfl
  · intro s i hi _ _; simpa [breakIndentsNonneg] using hi
  · intro ps ih i hi h hr
    simp only [Doc.nestNonneg, nestSumsInRange] at h hr
    simpa [breakIndentsNonneg] using ih i hi h hr
  · intro q k ih i hi h hr
    simp only [Doc.nestNonneg, nestSumsInRange, Bool.and_eq_true, decide_eq_true_eq] at h hr
    simp only [breakIndentsNonneg]
    rw [intAdd_eq_add i k hi h.1 hr.1]
    exact ih (i + k) (by omega) h.2 hr.2
  · intro q ih i hi h hr
    simp only [Doc.nestNonneg, nestSumsInRange] at h hr
    simpa [breakIndentsNonneg] using ih i hi h hr
  · intro i _ _ _; rfl
  · intro x xs ih1 ih2 i hi h hr
    simp only [nestNonnegList, nestSumsInRangeList, Bool.and_eq_true] at h hr
    simp only [breakIndentsNonnegList, Bool.and_eq_true]
    exact ⟨ih1 i hi h.1 hr.1, ih2 i hi h.2 hr.2⟩

theorem fitsStep_decreases (width : Int) (st st' : FitsState)
    (h : fitsStep width st = Sum.inr st') :
    nodesList st'.docs < nodesList st.docs := by
  obtain ⟨eb, bm, docs, c⟩ := st
  unfold fitsStep at h
  split at h
  · cases h
  · split at h
    · cases h
    all_goals try (split at h)
    all_goals
      cases h
      simp_all [nodesList, Doc.nodes, nodesList_append]
    all_goals omega

theorem fitsLoop_eq_step (width : Int) (st : FitsState) :
    fitsLoop width st.encounteredBreak st.breakMode st.docs st.c =
      match fitsStep width st with
      | Sum.inl b => b
      | Sum.inr st' => fitsLoop width st'.encounteredBreak st'.breakMode st'.docs st'.c := by
  obtain ⟨eb, bm, docs, c⟩ := st
  by_cases h : c > width ∧ eb = true
  · rw [fitsLoop.eq_def]; simp [fitsStep, h]
  · cases docs with
    | nil => rw [fitsLoop.eq_def]; simp [fitsStep, h]
    | cons d remain =>
      cases d with
      | DocBreak p => cases bm <;> (rw [fitsLoop.eq_def]; simp [fitsStep, h])
      | _ => rw [fitsLoop.eq_def]; simp [fitsStep, h]

theorem fitsRun_eq (width : Int) (n : Nat) :
    ∀ st : FitsState, nodesList st.docs < n →
      fitsRun width n st
        = some (fitsLoop width st.encounteredBreak st.breakMode st.docs st.c) := by
  induction n with
  | zero => intro st h; omega
  | succ n ih =>
    intro st h
    rw [fitsRun, fitsLoop_eq_step]
    cases hs : fitsStep width st with
    | inl b => rfl
    | inr st' =>
      have := fitsStep_decreases width st st' hs
      exact ih st' (by omega)

theorem formatStep_decreases (width : Int) (st st' : FormatState)
    (h : formatStep width st = FormatStep.next st') :
    nodesStates st'.docs < nodesStates st.docs := by
  obtain ⟨docs, columns, output⟩ := st
  cases docs with
  | nil => simp [formatStep] at h
  | cons hd tail =>
    obtain ⟨i, m, d⟩ := hd
    cases d with
    | DocBreak p =>
      cases m with
      | Flat =>
        simp only [formatStep] at h
        cases h
        simp [nodesStates, nodesList, Doc.nodes]
      | Broken =>
        simp only [formatStep] at h
        split at h
        · cases h
        · cases h
          simp [nodesStates, nodesList, Doc.nodes]
      | None =>
        simp only [formatStep] at h
        split at h
        · cases h
        · cases h
          simp [nodesStates, nodesList, Doc.nodes]
    | _ =>
      simp only [formatStep] at h
      cases h
      simp [nodesStates, nodesList, Doc.nodes, nodesList_append, Function.comp_def]

theorem formatLoop_eq_step (width : Int) (st : FormatState) :
    formatLoop width st.docs st.columns st.output =
      match formatStep width st with
      | FormatStep.returned s => some s
      | FormatStep.panicked => none
      | FormatStep.next st' => formatLoop width st'.docs st'.columns st'.output := by
  obtain ⟨docs, columns, output⟩ := st
  cases docs with
  | nil => rw [formatLoop]; simp [formatStep]
  | cons hd tail =>
    obtain ⟨i, m, d⟩ := hd
    cases d with
    | DocBreak p =>
      cases m with
      | Flat => rw [formatLoop]; simp [formatStep]
      | Broken =>
        rw [formatLoop]
        simp only [formatStep]
        cases stringsRepeat " " i <;> rfl
      | None =>
        rw [formatLoop]
        simp only [formatStep]
        cases stringsRepeat " " i <;> rfl
    | _ => rw [formatLoop]; simp [formatStep]

theorem formatRun_eq (width : Int) (n : Nat) :
    ∀ st : FormatState, nodesStates st.docs < n →
      formatRun width n st = some (formatLoop width st.docs st.columns st.output) := by
  induction n with
  | zero => intro st h; omega
  | succ n ih =>
    intro st h
    rw [formatRun, formatLoop_eq_step]
    cases hs : formatStep width st with
    | returned s => rfl
    | panicked => rfl
    | next st' =>
      have := formatStep_decreases width st st' hs
      exact ih st' (by omega)

/-- C15, as the code behaves: both work-list loops terminate on every document. An
iteration that does not leave the loop strictly decreases the number of document
nodes in the work list; `DocGroup{d}.fits(w)` reaches a return statement within
`nodes(d) + 2` iterations; `format(d, w)` leaves its loop within `nodes(d) + 1`
iterations, at its return statement or in the panic of `strings.Repeat`. -/
theorem loops_terminate (d : Doc) (w : Int) :
    (∀ st st', fitsStep w st = Sum.inr st' → nodesList st'.docs < nodesList st.docs) ∧
      fitsRun w (d.nodes + 2) ⟨false, BreakMode.Flat, [DocGroup d], 0⟩ = some (fits d w) ∧
      (∀ st st', formatStep w st = FormatStep.next st' →
        nodesStates st'.docs < nodesStates st.docs) ∧
      formatRun w (d.nodes + 1) ⟨[⟨0, BreakMode.None, d⟩], 0, ""⟩ = some (format d w) := by
  refine ⟨fitsStep_decreases w, ?_, formatStep_decreases w, ?_⟩
  · rw [fitsRun_eq]
    · rfl
    · simp only [nodesList, Doc.nodes]; omega
  · rw [formatRun_eq]
    · rfl
    · simp only [nodesStates, List.map_cons, List.map_nil, nodesList]; omega

/-- C15, as stated, fails for `format`: on a break at indentation `-2` the loop is
left in its third iteration by the panic of `strings.Repeat`, so the return
statement is never reached. -/
theorem format_loop_leaves_by_panic :
    formatRun 80 3 ⟨[⟨0, BreakMode.None, DocCons [DocNest (DocBreak " ") (-2)]⟩], 0, ""⟩
        = some none ∧
      format (DocCons [DocNest (DocBreak " ") (-2)]) 80 = none := by
  constructor
  · decide
  · simp [format, formatLoop, intSub, intAdd, isInt64, wrapInt64, MinInt64, MaxInt64,
      stringsRepeat]

/-- C16: a group nested in a group that was resolved broken is decided on its own. For
`outer = group(Cons[text("aaaa"), group(Cons[text("b"), _break(), text("c")]),
_break(), text("dddd")])` at width 8 the outer group does not fit, the inner group
fits in the remaining width `8 - 4`, and the output is `aaaab c`, a newline, `dddd`:
the break of the outer group is a newline, the break of the inner group its
fallback string. -/
theorem format_nested_group_independent :
    fits (DocCons [text "aaaa", group (DocCons [text "b", _break, text "c"]), _break,
        text "dddd"]) (8 - 0) = false ∧
      fits (DocCons [text "b", _break, text "c"]) (8 - 4) = true ∧
      format (group (DocCons [text "aaaa", group (DocCons [text "b", _break, text "c"]),
        _break, text "dddd"])) 8 = some "aaaab c\ndddd" := by
  simp only [text, _break, group]
  refine ⟨?_, ?_, ?_⟩
  · simp [fits, fitsLoop, runeLen, String.length]
  · simp [fits, fitsLoop, runeLen, String.length]
  · simp [format, formatLoop, intSub, intAdd, isInt64, wrapInt64, MinInt64, MaxInt64,
      fits, fitsLoop, runeLen, String.length, stringsRepeat,
      String.join]

/-- C17: `format` is context-sensitive. For `g = group(Cons[text("a"), _break(),
text("b")])` and width 3, within the single call `format(concat(g, g), 3)` the first
occurrence of `g` is met at column 0 and fits (`fits(3 - 0)`), the second is met at
column 3 and does not (`fits(3 - 3)`); the output is `a ba`, a newline, `b`. -/
theorem format_context_sensitive :
    fits (DocCons [text "a", _break, text "b"]) (3 - 0) = true ∧
      fits (DocCons [text "a", _break, text "b"]) (3 - 3) = false ∧
      format (concat (group (DocCons [text "a", _break, text "b"]))
        (group (DocCons [text "a", _break, text "b"]))) 3 = some "a ba\nb" := by
  simp only [text, _break, group, concat]
  refine ⟨?_, ?_, ?_⟩
  · simp [fits, fitsLoop, runeLen, String.length]
  · simp [fits, fitsLoop, runeLen, String.length]
  · simp [format, formatLoop, intSub, intAdd, isInt64, wrapInt64, MinInt64, MaxInt64,
      fits, fitsLoop, runeLen, String.length, stringsRepeat,
      String.join]

/-- C20: `concat` is associative as an equation on documents: both groupings are the
cons whose children are `children(a) ++ children(b) ++ children(c)`. -/
theorem concat_assoc (a b c : Doc) :
    concat (concat a b) c = concat a (concat b c) ∧
      concat (concat a b) c = DocCons (children a ++ children b ++ children c) := by
  simp only [concat_eq_children, children, List.append_assoc, and_self]

/-- Closed form of the front-insertion variant of the loop of `fits`; the same as
`fitsLoop_eq`. -/
theorem fitsFrontLoop_eq (width : Int) (eb : Bool) (bm : BreakMode) (docs : List Doc)
    (c : Int) :
    bm = BreakMode.Flat →
    fitsFrontLoop width eb bm docs c
      = !((eb || hasBreakList docs) && decide (width < c + flatLenList docs)) := by
  induction eb, bm, docs, c using fitsFrontLoop.induct width with
  | case1 eb bm docs c h =>
    intro _
    have := flatLenList_nonneg docs
    rw [fitsFrontLoop.eq_def, if_pos h]
    obtain ⟨h1, h2⟩ := h
    subst h2
    simp; omega
  | case2 eb bm c h =>
    intro _
    rw [fitsFrontLoop, if_neg h]
    simp only [hasBreakList, flatLenList, Bool.or_false, add_zero]
    cases eb <;> simp_all
  | case3 eb bm c h remain ih =>
    intro hb
    rw [fitsFrontLoop, if_neg h, ih hb]
    simp [hasBreakList, flatLenList, Doc.hasBreak, Doc.flatLen]
  | case4 eb bm c h payload remain ih =>
    intro hb
    rw [fitsFrontLoop, if_neg h, ih hb]
    simp [hasBreakList, flatLenList, Doc.hasBreak, Doc.flatLen, add_assoc]
  | case5 eb c h payload remain ih =>
    intro hb
    rw [fitsFrontLoop, if_neg h, ih hb]
    simp [hasBreakList, flatLenList, Doc.hasBreak, Doc.flatLen, add_assoc]
  | case6 eb c h payload remain ih => intro hb; cases hb
  | case7 eb c h payload remain ih => intro hb; cases hb
  | case8 eb bm c h payload indent remain ih =>
    intro hb
    rw [fitsFrontLoop, if_neg h, ih hb]
    simp [hasBreakList, flatLenList, Doc.hasBreak, Doc.flatLen]
  | case9 eb bm c h payload remain ih =>
    intro hb
    rw [fitsFrontLoop, if_neg h, ih hb]
    simp [hasBreakList, flatLenList, Doc.hasBreak, Doc.flatLen, hasBreakList_append,
      flatLenList_append, add_assoc]
  | case10 eb bm c h payload remain ih =>
    intro hb
    rw [fitsFrontLoop, if_neg h, ih rfl]
    simp [hasBreakList, flatLenList, Doc.hasBreak, Doc.flatLen]

/-- C19: the result of `fits` does not depend on where the payload of a nested group
is put in the work list: `DocGroup{d}.fits(w)`, which appends it at the end, equals
the variant that puts it at the front (strict left-to-right traversal), for every
document and width. -/
theorem fits_eq_fitsFront (d : Doc) (w : Int) : fits d w = fitsFront d w := by
  rw [fits, fitsFront, fitsLoop_eq _ _ _ _ _ rfl, fitsFrontLoop_eq _ _ _ _ _ rfl]

end PrettyPrinter
